import Mathlib

/-!
Verification of the redgem gemini server core against its source.

The development shallowly embeds the request parser (`src/server/request.rs`),
the archive index and path resolver (`src/server/mod.rs`), the response
encoder and its chained byte source (`src/server/response.rs`), and the
header-read / response-write connection phases (`src/server/mod.rs`).
Byte strings are `List UInt8`; external collaborators (the TLS stream, the
zip backend, the `fluent_uri` URI grammar) are modelled at their interfaces.
-/

/-- Byte strings, the basic data of the wire protocol. -/
abbrev Bytes := List UInt8

/-- Bytes of an ASCII string literal (all literals in the source are ASCII). -/
def ascii (s : String) : Bytes :=
  s.data.map fun c => UInt8.ofNat c.toNat

/-- ASCII lowercasing of a single byte, as Rust's `to_ascii_lowercase`. -/
def lowerByte (b : UInt8) : UInt8 :=
  if 65 ≤ b ∧ b ≤ 90 then b + 32 else b

/-- ASCII lowercasing of a byte string; on UTF-8 text this agrees with
`str::to_ascii_lowercase`, since all non-ASCII code units are ≥ 0x80. -/
def asciiLower (b : Bytes) : Bytes := b.map lowerByte

/-- Rust's `str::eq_ignore_ascii_case`, byte-wise ASCII case folding. -/
def eqIgnoreAsciiCase (a b : Bytes) : Bool := asciiLower a == asciiLower b

/-- Whether a byte is a UTF-8 continuation byte (0x80–0xBF). -/
def utf8Cont (b : UInt8) : Bool := 128 ≤ b ∧ b ≤ 191

/-- UTF-8 validity of a byte string, as checked by Rust's `str::from_utf8`:
no overlong encodings, no surrogates, no code points above 0x10FFFF. -/
def utf8Valid : Bytes → Bool
  | [] => true
  | b :: rest =>
    if b ≤ 127 then utf8Valid rest
    else if b < 194 then false
    else if b ≤ 223 then
      match rest with
      | c :: rest => utf8Cont c && utf8Valid rest
      | [] => false
    else if b = 224 then
      match rest with
      | c :: d :: rest => (160 ≤ c ∧ c ≤ 191 : Bool) && utf8Cont d && utf8Valid rest
      | _ => false
    else if b ≤ 236 then
      match rest with
      | c :: d :: rest => utf8Cont c && utf8Cont d && utf8Valid rest
      | _ => false
    else if b = 237 then
      match rest with
      | c :: d :: rest => (128 ≤ c ∧ c ≤ 159 : Bool) && utf8Cont d && utf8Valid rest
      | _ => false
    else if b ≤ 239 then
      match rest with
      | c :: d :: rest => utf8Cont c && utf8Cont d && utf8Valid rest
      | _ => false
    else if b = 240 then
      match rest with
      | c :: d :: e :: rest =>
        (144 ≤ c ∧ c ≤ 191 : Bool) && utf8Cont d && utf8Cont e && utf8Valid rest
      | _ => false
    else if b ≤ 243 then
      match rest with
      | c :: d :: e :: rest => utf8Cont c && utf8Cont d && utf8Cont e && utf8Valid rest
      | _ => false
    else if b = 244 then
      match rest with
      | c :: d :: e :: rest =>
        (128 ≤ c ∧ c ≤ 143 : Bool) && utf8Cont d && utf8Cont e && utf8Valid rest
      | _ => false
    else false

/-- Value of an ASCII hex digit, if the byte is one. -/
def hexVal (b : UInt8) : Option Nat :=
  if 48 ≤ b ∧ b ≤ 57 then some (b.toNat - 48)
  else if 65 ≤ b ∧ b ≤ 70 then some (b.toNat - 55)
  else if 97 ≤ b ∧ b ≤ 102 then some (b.toNat - 87)
  else none

/-- Percent-decoding of a byte string, as `fluent_uri`'s `EStr::decode`
exposed by `Request::pathname`: each valid `%XX` triple becomes one byte,
everything else passes through. -/
def pctDecode : Bytes → Bytes
  | 37 :: a :: b :: rest =>
    match hexVal a, hexVal b with
    | some x, some y => UInt8.ofNat (16 * x + y) :: pctDecode rest
    | _, _ => 37 :: pctDecode (a :: b :: rest)
  | c :: rest => c :: pctDecode rest
  | [] => []

/-- Whether the byte string contains the CRLF pair anywhere. -/
def containsCrlf : Bytes → Bool
  | [] => false
  | b :: rest => ((b == 13) && (rest.head? == some 10)) || containsCrlf rest

/-- Rust's `slice::strip_suffix(b"\r\n")`: the content with the final CRLF
removed, when the string ends with one. -/
def stripSuffixCrlf (l : Bytes) : Option Bytes :=
  match l.reverse with
  | 10 :: 13 :: rest => some rest.reverse
  | _ => none

/-! ## Paths

`PathBuf` keys are compared by their normalized components, so the index key
space is modelled as the component list of an absolute path: splitting on
`/`, dropping empty components and `.` components (std's `Components`
normalization for absolute paths), and keeping `..` components untouched. -/

/-- An absolute path, as the component list after the root. -/
abbrev PathKey := List Bytes

/-- `Path::new("/").join(bytes)` viewed through component normalization:
whether `bytes` is relative or absolute, the result's components are those
of `bytes` with empty and `.` components dropped. -/
def joinRoot (b : Bytes) : PathKey :=
  (b.splitOn 47).filter fun c => !c.isEmpty && c != [46]

/-- `Path::file_name()`: the final component, unless it is `..` (or the
path is the bare root). -/
def fileName (p : PathKey) : Option Bytes :=
  match p.getLast? with
  | none => none
  | some c => if c = [46, 46] then none else some c

/-- `PathBuf::pop()`: the path with its final component removed. -/
def popPath (p : PathKey) : PathKey := p.dropLast

/-- Index of the last `.` byte in a file name, if any. -/
def lastDotIdx (f : Bytes) : Option Nat :=
  ((List.range f.length).filter fun i => f.getD i 0 == 46).getLast?

/-- `Path::extension()`: the part of the file name after its last dot,
provided the part before that dot is nonempty. -/
def extension (p : PathKey) : Option Bytes :=
  match fileName p with
  | none => none
  | some f =>
    match lastDotIdx f with
    | none => none
    | some 0 => none
    | some (i + 1) => some (f.drop (i + 2))

/-! ## Error kinds and status lines (`src/server/mod.rs`) -/

/-- The server's closed error enumeration, exactly the variants of `Error`
in `src/server/mod.rs` (the `NonUtf8` payload is dropped). -/
inductive Err where
  | HeaderTooLong
  | NonUtf8
  | UnparseableUri
  | NonGeminiScheme
  | NoAuthority
  | Userinfo
  | HasFragment
  | NotFound
  | BadEntry
  | Timeout
  | UriBuild
deriving DecidableEq

/-- `Error::bytes`: the fixed status line of each error kind. -/
def Err.bytes : Err → Bytes
  | .HeaderTooLong => ascii "59 header too long\r\n"
  | .NonUtf8 => ascii "59 cannot parse url\r\n"
  | .UnparseableUri => ascii "59 cannot parse url\r\n"
  | .NonGeminiScheme => ascii "53 gemini scheme required\r\n"
  | .NoAuthority => ascii "59 missing url authority\r\n"
  | .Userinfo => ascii "59 your client leaks url userinfo! please report this\r\n"
  | .HasFragment => ascii "59 your client leaks url fragments! please report this\r\n"
  | .NotFound => ascii "51 not found\r\n"
  | .BadEntry => ascii "40 failed to open zip entry\r\n"
  | .Timeout => ascii "40 timed out\r\n"
  | .UriBuild => ascii "40 failed to build uri\r\n"

/-- All variants of `Err`, in declaration order. -/
def Err.all : List Err :=
  [.HeaderTooLong, .NonUtf8, .UnparseableUri, .NonGeminiScheme, .NoAuthority,
   .Userinfo, .HasFragment, .NotFound, .BadEntry, .Timeout, .UriBuild]

/-! ## Requests (`src/server/request.rs`)

The `fluent_uri` crate is an external collaborator: a parsed URI is
modelled by its components, and `Uri::parse` itself appears as an oracle
argument (`Option Uri`) standing for the crate's parse of the input text.
`request.rs` refers to error variants (`SniMismatch`, `HasQuery`) that are
not present in `mod.rs`'s enum, so the parser's error set is modelled as
its own type. -/

/-- The authority component of a URI. -/
structure UriAuthority where
  userinfo : Option Bytes
  host : Bytes
  port : Option Bytes
deriving DecidableEq

/-- A parsed absolute URI, by components. -/
structure Uri where
  scheme : Bytes
  authority : Option UriAuthority
  path : Bytes
  query : Option Bytes
  fragment : Option Bytes
deriving DecidableEq

/-- Recomposition of an authority into its textual form. -/
def UriAuthority.toBytes (a : UriAuthority) : Bytes :=
  (match a.userinfo with | some ui => ui ++ [64] | none => []) ++
    a.host ++ (match a.port with | some p => [58] ++ p | none => [])

/-- Recomposition of a URI into its textual form (`Uri::as_str`). -/
def Uri.toBytes (u : Uri) : Bytes :=
  u.scheme ++ [58] ++
    (match u.authority with | some a => [47, 47] ++ a.toBytes | none => []) ++
    u.path ++
    (match u.query with | some q => [63] ++ q | none => []) ++
    (match u.fragment with | some f => [35] ++ f | none => [])

/-- A validated gemini request, wrapping the parsed URI. -/
structure Request where
  uri : Uri
deriving DecidableEq

/-- The errors `Request::parse` can return. -/
inductive RequestError where
  | NonUtf8
  | UnparseableUri
  | NonGeminiScheme
  | NoAuthority
  | SniMismatch
  | Userinfo
  | HasQuery
  | HasFragment
deriving DecidableEq

/-- `Request::parse`: validate one request line. `parsed` is the oracle
result of `Uri::parse` on the UTF-8 decoding of `inp`; the scheme
comparison is ASCII case-insensitive, as `fluent_uri::Scheme` equality is. -/
def Request.parse (inp : Bytes) (parsed : Option Uri) (expect_host : Option Bytes) :
    Except RequestError Request :=
  if utf8Valid inp = false then .error .NonUtf8
  else
    match parsed with
    | none => .error .UnparseableUri
    | some u =>
      if eqIgnoreAsciiCase u.scheme (ascii "gemini") = false then .error .NonGeminiScheme
      else
        match u.authority with
        | none => .error .NoAuthority
        | some a =>
          if (match expect_host with
              | some h => !eqIgnoreAsciiCase h a.host
              | none => false) then .error .SniMismatch
          else if a.userinfo.isSome then .error .Userinfo
          else if u.query.isSome then .error .HasQuery
          else if u.fragment.isSome then .error .HasFragment
          else .ok ⟨u⟩

/-- `Request::pathname`: the percent-decoded path. -/
def Request.pathname (r : Request) : Bytes := pctDecode r.uri.path

/-- `Request::as_str`: the textual form of the request URI. -/
def Request.as_str (r : Request) : Bytes := r.uri.toBytes

/-- Result of `Request::with_trailing`, with the `.expect` panic path made
explicit. -/
inductive TrailingResult where
  | panicked
  | error (e : Err)
  | ok (r : Request)
deriving DecidableEq

/-- The structural validity rule enforced by `fluent_uri`'s builder when an
authority is present: the path must be empty or begin with `/`. -/
def buildPathOk (path : Bytes) : Bool := path.isEmpty || (path.head? == some 47)

/-- `Request::with_trailing`: rebuild the request with `/` appended to the
path, preserving scheme and authority; panics when the request has no
authority, and reports a build failure as `Error::UriBuild`. -/
def Request.with_trailing (r : Request) : TrailingResult :=
  match r.uri.authority with
  | none => .panicked
  | some _ =>
    if buildPathOk (r.uri.path ++ [47]) then
      .ok ⟨{ r.uri with path := r.uri.path ++ [47] }⟩
    else .error .UriBuild

/-! ## MIME types (`src/server/response.rs`) -/

/-- A MIME type, a (top-level, subtype) pair of static strings. -/
structure MimeType where
  domtype : String
  subtype : String
deriving DecidableEq

/-- The static extension table of `MimeType::from_extension`, one row per
extension literal of the source's match arms. -/
def mimeTable : List (Bytes × MimeType) :=
  [(ascii "c", ⟨"text", "x-c"⟩), (ascii "cc", ⟨"text", "x-c"⟩),
   (ascii "cpp", ⟨"text", "x-c"⟩), (ascii "cxx", ⟨"text", "x-c"⟩),
   (ascii "h", ⟨"text", "x-c"⟩), (ascii "hh", ⟨"text", "x-c"⟩),
   (ascii "hpp", ⟨"text", "x-c"⟩), (ascii "hxx", ⟨"text", "x-c"⟩),
   (ascii "rs", ⟨"text", "x-c"⟩),
   (ascii "css", ⟨"text", "css"⟩),
   (ascii "csv", ⟨"text", "csv"⟩),
   (ascii "diff", ⟨"text", "x-diff"⟩),
   (ascii "gif", ⟨"image", "gif"⟩),
   (ascii "gmi", ⟨"text", "gemini"⟩), (ascii "gemini", ⟨"text", "gemini"⟩),
   (ascii "go", ⟨"text", "x-go"⟩),
   (ascii "gpub", ⟨"application", "gpub+zip"⟩),
   (ascii "html", ⟨"text", "html"⟩), (ascii "htm", ⟨"text", "html"⟩),
   (ascii "jpeg", ⟨"image", "jpeg"⟩), (ascii "jpg", ⟨"image", "jpeg"⟩),
   (ascii "js", ⟨"text", "javascript"⟩), (ascii "mjs", ⟨"text", "javascript"⟩),
   (ascii "json", ⟨"application", "json"⟩),
   (ascii "m3u", ⟨"audio", "x-mpegurl"⟩),
   (ascii "md", ⟨"text", "markdown"⟩), (ascii "mdwn", ⟨"text", "markdown"⟩),
   (ascii "markdown", ⟨"text", "markdown"⟩),
   (ascii "mp3", ⟨"audio", "mpeg"⟩),
   (ascii "mp4", ⟨"video", "mp4"⟩),
   (ascii "ogg", ⟨"application", "ogg"⟩),
   (ascii "patch", ⟨"text", "x-patch"⟩),
   (ascii "pdf", ⟨"application", "pdf"⟩),
   (ascii "png", ⟨"image", "png"⟩),
   (ascii "py", ⟨"text", "x-script.python"⟩),
   (ascii "sh", ⟨"text", "x-shellscript"⟩),
   (ascii "svg", ⟨"image", "svg+xml"⟩),
   (ascii "torrent", ⟨"application", "x-bittorrent"⟩),
   (ascii "tsv", ⟨"text", "tab-separated-values"⟩),
   (ascii "txt", ⟨"text", "plain"⟩), (ascii "asc", ⟨"text", "plain"⟩),
   (ascii "conf", ⟨"text", "plain"⟩), (ascii "el", ⟨"text", "plain"⟩),
   (ascii "log", ⟨"text", "plain"⟩), (ascii "lua", ⟨"text", "plain"⟩),
   (ascii "nix", ⟨"text", "plain"⟩), (ascii "org", ⟨"text", "plain"⟩),
   (ascii "pm", ⟨"text", "plain"⟩), (ascii "tal", ⟨"text", "plain"⟩),
   (ascii "text", ⟨"text", "plain"⟩), (ascii "toml", ⟨"text", "plain"⟩),
   (ascii "vf", ⟨"text", "plain"⟩), (ascii "yml", ⟨"text", "plain"⟩),
   (ascii "yaml", ⟨"text", "plain"⟩),
   (ascii "vcf", ⟨"text", "vcard"⟩), (ascii "vcard", ⟨"text", "vcard"⟩),
   (ascii "wasm", ⟨"application", "wasm"⟩),
   (ascii "wav", ⟨"audio", "x-wav"⟩),
   (ascii "webm", ⟨"video", "webm"⟩),
   (ascii "webp", ⟨"image", "webp"⟩),
   (ascii "xml", ⟨"text", "xml"⟩), (ascii "xsl", ⟨"text", "xml"⟩),
   (ascii "zip", ⟨"application", "zip"⟩),
   (ascii "zstd", ⟨"application", "zstd"⟩), (ascii "zst", ⟨"application", "zstd"⟩)]

/-- `MimeType::from_extension`: `ext.and_then(OsStr::to_str)` turns a
missing or non-UTF-8 extension into `None`, which the source's match sends
to `text/gemini` together with `gmi`/`gemini`; otherwise the
ASCII-lowercased extension is looked up in the table, defaulting to
`application/octet-stream`. -/
def MimeType.from_extension (ext : Option Bytes) : MimeType :=
  match ext with
  | none => ⟨"text", "gemini"⟩
  | some b =>
    if utf8Valid b then
      match mimeTable.find? (fun kv => kv.1 == asciiLower b) with
      | some kv => kv.2
      | none => ⟨"application", "octet-stream"⟩
    else ⟨"text", "gemini"⟩

/-- `MimeType::bytes_append`: the `type/subtype` bytes of a MIME type. -/
def MimeType.toBytes (m : MimeType) : Bytes :=
  ascii m.domtype ++ [47] ++ ascii m.subtype

/-! ## The archive index (`Server::from_zip`) -/

/-- One archive entry as the index builder sees it: raw filename bytes and
the directory flag. -/
structure ZipEntry where
  filename : Bytes
  isDir : Bool
deriving DecidableEq

/-- The index, a map from absolute path to (entry id, is-index flag). -/
abbrev Index := PathKey → Option (Nat × Bool)

/-- The empty index. -/
def emptyIndex : Index := fun _ => none

/-- `BTreeMap::insert`: later insertions overwrite earlier ones. -/
def insertIdx (m : Index) (k : PathKey) (v : Nat × Bool) : Index :=
  fun q => if q = k then some v else m q

/-- One iteration of the `Server::from_zip` loop over `(i, entry)`: skip
directories, insert the parent path with `is_index = true` when the file
name is exactly `index.gmi`, then insert the file path itself. -/
def fromZipStep (m : Index) (ie : Nat × ZipEntry) : Index :=
  if ie.2.isDir then m
  else
    insertIdx
      (if fileName (joinRoot ie.2.filename) = some (ascii "index.gmi")
       then insertIdx m (popPath (joinRoot ie.2.filename)) (ie.1, true)
       else m)
      (joinRoot ie.2.filename) (ie.1, false)

/-- `Server::from_zip`: fold the entry list, in archive order, into the
index. -/
def from_zip (entries : List ZipEntry) : Index :=
  entries.enum.foldl fromZipStep emptyIndex

/-! ## Path resolution (`Server::get_file`) -/

/-- `trailing` as `get_file` computes it: the decoded path is empty or
ends with `/`. -/
def Request.trailingSlash (r : Request) : Bool :=
  r.pathname.isEmpty || (r.pathname.getLast? == some 47)

/-- The index key of a request: the decoded path joined onto the root. -/
def Request.pathKey (r : Request) : PathKey := joinRoot r.pathname

/-- The outcome of `Server::get_file`, a `Response` with the success body
identified by its archive entry id, plus the explicit panic outcome that
`with_trailing` could raise. -/
inductive GetFileResult where
  | failure (e : Err)
  | redirect (target : Request)
  | success (mimetype : MimeType) (entry : Nat)
  | panicked
deriving DecidableEq

/-- `Server::get_file`: resolve the decoded path against the index and
decide between Not-Found, Redirect and Serve. `openOk id` models whether
`zip.reader_with_entry(id)` succeeds (an external zip-backend outcome). -/
def get_file (idx : Index) (openOk : Nat → Bool) (r : Request) : GetFileResult :=
  match idx r.pathKey with
  | none => .failure .NotFound
  | some (id, isIndex) =>
    match isIndex, r.trailingSlash with
    | false, true => .failure .NotFound
    | true, false =>
      match r.with_trailing with
      | .ok new => .redirect new
      | .error e => .failure e
      | .panicked => .panicked
    | _, _ =>
      if openOk id then
        .success (MimeType.from_extension (if isIndex then none else extension r.pathKey)) id
      else .failure .BadEntry

/-! ## The response encoder (`src/server/response.rs`) -/

/-- A gemini protocol response; the success body is an in-memory byte
source (the body stream read through to its bytes). -/
inductive Response where
  | success (mimetype : MimeType) (body : Bytes)
  | failure (kind : Err)
  | permanentRedirect (target : Request)
deriving DecidableEq

/-- The state of `OptionalChain`'s `Chain` variant: two in-memory byte
sources and the `done_first` flag. The `Single` variant behaves as a chain
whose second source is empty. -/
structure ChainState where
  first : Bytes
  second : Bytes
  done_first : Bool
deriving DecidableEq

/-- `OptionalChain::chain`. -/
def OptionalChain.chain (f s : Bytes) : ChainState := ⟨f, s, false⟩

/-- `OptionalChain::single`. -/
def OptionalChain.single (f : Bytes) : ChainState := ⟨f, [], false⟩

/-- `Response::into_read`: a fixed in-memory status line, chained with the
pass-through body for a success. -/
def Response.into_read : Response → ChainState
  | .success m body => OptionalChain.chain (ascii "20 " ++ m.toBytes ++ ascii "\r\n") body
  | .failure kind => OptionalChain.single kind.bytes
  | .permanentRedirect target => OptionalChain.single (ascii "31 " ++ target.as_str ++ ascii "\r\n")

/-- One `poll_read` of `OptionalChain` into a buffer with `n` bytes of
remaining capacity: while `done_first` is unset, read from the first
source; if that read produces zero further bytes, set `done_first` and
read from the second source into the same buffer. -/
def chainRead (s : ChainState) (n : Nat) : Bytes × ChainState :=
  if s.done_first then (s.second.take n, { s with second := s.second.drop n })
  else
    let out := s.first.take n
    if out.isEmpty then
      (s.second.take n, { s with second := s.second.drop n, done_first := true })
    else (out, { s with first := s.first.drop n })

/-- Repeated reads of an `OptionalChain`, one per buffer capacity in
`sizes`, concatenating everything produced. -/
def chainDrain (s : ChainState) : List Nat → Bytes
  | [] => []
  | n :: rest =>
    let r := chainRead s n
    r.1 ++ chainDrain r.2 rest

/-! ## The header-read phase (`Server::parse_req`) -/

/-- The outcome of the header-read loop: either a complete line (content
handed to `Request::parse`) or the `HeaderTooLong` rejection. -/
inductive HeaderRead where
  | line (content : Bytes)
  | headerTooLong
deriving DecidableEq

/-- `Server::parse_req`'s read loop over a 1026-byte buffer. Each element
of `chunks` is what one `stream.read` offers; the read returns at most the
buffer's remaining capacity, and a read that returns an error or zero
bytes (end of schedule, empty chunk, or a full buffer) yields
`HeaderTooLong`. After each successful read the buffered bytes are checked
for a CRLF suffix. -/
def parseReqRec (buf : Bytes) : List Bytes → HeaderRead
  | [] => .headerTooLong
  | ch :: rest =>
    let c := ch.take (1026 - buf.length)
    if c.isEmpty then .headerTooLong
    else
      match stripSuffixCrlf (buf ++ c) with
      | some l => .line l
      | none => parseReqRec (buf ++ c) rest

/-! ## The response-write phase (`send_response` under `timeout`) -/

/-- The fate of the `tokio::io::copy` call inside `send_response`:
finished, failed with a transport error, or cancelled by the enclosing
write-phase `timeout` before it could finish. -/
inductive CopyOutcome where
  | completed
  | errored
  | cancelled
deriving DecidableEq

/-- The copy loop: each poll forwards up to `chunk` bytes of the remaining
response; `fuel` is the number of polls the write-phase deadline admits,
and `errAt = some k` makes the transport fail at poll `k`. -/
def copyLoop : Nat → Nat → Nat → Option Nat → CopyOutcome
  | 0, _, _, _ => .cancelled
  | fuel + 1, remaining, chunk, errAt =>
    if errAt = some 0 then .errored
    else if remaining = 0 then .completed
    else copyLoop fuel (remaining - chunk) chunk (errAt.map (· - 1))

/-- The number of polls the copy loop needs to complete a `r`-byte
response at `chunk` bytes per poll. -/
def copyPolls (r chunk : Nat) : Nat := (r + chunk - 1) / chunk + 1

/-- `send_response`: the graceful half-close (`stream.shutdown`, sending
close_notify) is performed exactly when `copy` returned Ok — a copy that
errored, or that the write-phase deadline cancelled, drops the connection
without it. -/
def send_response (respLen chunk fuel : Nat) (errAt : Option Nat) : Bool :=
  match copyLoop fuel respLen chunk errAt with
  | .completed => true
  | .errored => false
  | .cancelled => false

/-! ## Claim C6 — status lines -/

/-- Every `Err` variant is listed in `Err.all`. -/
theorem err_all_complete : ∀ e : Err, e ∈ Err.all := by
  intro e; cases e <;> simp [Err.all]

/-- C6 counterexample: no error kind of `src/server/mod.rs` produces a
status line beginning `40 zip entry corrupted`, so the claimed fourth
code-40 line does not exist in the code. -/
theorem c6_counterexample :
    (Err.all.map Err.bytes).all (fun l => !((ascii "40 zip entry corrupted").isPrefixOf l)) = true := by
  decide

/-- C6 (amended): every error kind is bound to exactly one fixed
CRLF-terminated status line, and the code-40 status lines are exactly
`40 failed to open zip entry`, `40 timed out` and `40 failed to build
uri`. -/
theorem c6_status_lines :
    (∀ e : Err, (ascii "\r\n").isSuffixOf e.bytes = true) ∧
      (Err.all.map Err.bytes).filter (fun l => (ascii "40 ").isPrefixOf l) =
        [ascii "40 failed to open zip entry\r\n", ascii "40 timed out\r\n",
         ascii "40 failed to build uri\r\n"] ∧
      (∀ e : Err, e ∈ Err.all) := by
  refine ⟨fun e => by cases e <;> decide, by decide, err_all_complete⟩

/-! ## Claim C10 — premature end of header input -/

/-- C10: during the header-read loop, a read that fails (end of the read
schedule) or returns zero bytes — an empty offer from the peer having
closed, or a full 1026-byte buffer leaving no capacity — rejects the
request with `HeaderTooLong`, whose status line is `59 header too long`. -/
theorem c10_premature_end :
    (∀ buf : Bytes, parseReqRec buf [] = .headerTooLong) ∧
      (∀ (buf ch : Bytes) (rest : List Bytes),
        (ch.take (1026 - buf.length)).isEmpty = true →
          parseReqRec buf (ch :: rest) = .headerTooLong) ∧
      Err.bytes .HeaderTooLong = ascii "59 header too long\r\n" := by
  refine ⟨fun buf => rfl, fun buf ch rest h => ?_, rfl⟩
  simp [parseReqRec, h]

/-- C10 witness: a peer that closes after sending only part of the line. -/
theorem c10_premature_end_witness :
    (([] : Bytes).take (1026 - (ascii "gemini://example").length)).isEmpty = true ∧
      parseReqRec (ascii "gemini://example") [[]] = .headerTooLong :=
  ⟨by decide, c10_premature_end.2.1 (ascii "gemini://example") [] [] (by decide)⟩

/-! ## Claim C5 — half-close discipline -/

/-- Unfolding of the poll count: one poll plus the polls needed for the
rest of the response. -/
theorem copyPolls_pos_step (r chunk : Nat) (hc : 0 < chunk) (hr : 0 < r) :
    copyPolls r chunk = copyPolls (r - chunk) chunk + 1 := by
  unfold copyPolls
  rcases Nat.lt_or_ge r chunk with h | h
  · have h1 : r - chunk = 0 := Nat.sub_eq_zero_of_le (Nat.le_of_lt h)
    have h2 : (r + chunk - 1) / chunk = 1 := by
      have lo : 1 * chunk ≤ r + chunk - 1 := by omega
      have hi : r + chunk - 1 < (1 + 1) * chunk := by omega
      exact Nat.div_eq_of_lt_le lo hi
    have h3 : (0 + chunk - 1) / chunk = 0 := Nat.div_eq_of_lt (by omega)
    rw [h1, h2, h3]
  · have heq : r + chunk - 1 = (r - chunk + chunk - 1) + chunk := by omega
    rw [heq, Nat.add_div_right _ hc]

/-- The copy loop completes exactly when the deadline admits all its polls
and the transport error, if scheduled, strikes only after them. -/
theorem copyLoop_completed_iff (chunk : Nat) (hc : 0 < chunk) :
    ∀ (fuel r : Nat) (errAt : Option Nat),
      (copyLoop fuel r chunk errAt = .completed ↔
        (copyPolls r chunk ≤ fuel ∧ ∀ k, errAt = some k → copyPolls r chunk ≤ k)) := by
  intro fuel
  induction fuel with
  | zero =>
    intro r errAt
    have : 0 < copyPolls r chunk := Nat.succ_pos _
    simp only [copyLoop]
    constructor
    · intro h; cases h
    · intro ⟨h1, _⟩; omega
  | succ fuel ih =>
    intro r errAt
    have hpos : 0 < copyPolls r chunk := Nat.succ_pos _
    by_cases he : errAt = some 0
    · subst he
      simp only [copyLoop, if_pos rfl]
      constructor
      · intro h; cases h
      · intro ⟨_, h2⟩
        have := h2 0 rfl
        omega
    · rcases Nat.eq_zero_or_pos r with hr | hr
      · subst hr
        have hp : copyPolls 0 chunk = 1 := by
          unfold copyPolls
          have : (0 + chunk - 1) / chunk = 0 := Nat.div_eq_of_lt (by omega)
          omega
        simp only [copyLoop, if_neg he, if_pos rfl]
        constructor
        · intro _
          refine ⟨by omega, fun k hk => ?_⟩
          rcases errAt with _ | k' <;> simp_all
          omega
        · intro _; rfl
      · have hstep := copyPolls_pos_step r chunk hc hr
        have hr0 : ¬ r = 0 := by omega
        simp only [copyLoop, if_neg he, if_neg hr0]
        rw [ih (r - chunk) (errAt.map (· - 1))]
        constructor
        · intro ⟨h1, h2⟩
          refine ⟨by omega, fun k hk => ?_⟩
          subst hk
          have hk0 : ¬ (k : Nat) = 0 := fun h => he (by simp [h])
          have := h2 (k - 1) (by simp)
          omega
        · intro ⟨h1, h2⟩
          refine ⟨by omega, fun k hk => ?_⟩
          rcases errAt with _ | k'
          · simp at hk
          · simp at hk
            have := h2 k' rfl
            omega

/-- C5: the transport's graceful half-close is performed if and only if
the response write completed fully — the copy finished without a
transport error inside the write-phase deadline. A write aborted by an
error or by the deadline drops the connection without calling shutdown. -/
theorem c5_half_close (respLen chunk fuel : Nat) (errAt : Option Nat) (hc : 0 < chunk) :
    send_response respLen chunk fuel errAt = true ↔
      (copyPolls respLen chunk ≤ fuel ∧
        ∀ k, errAt = some k → copyPolls respLen chunk ≤ k) := by
  unfold send_response
  rw [← copyLoop_completed_iff chunk hc fuel respLen errAt]
  cases copyLoop fuel respLen chunk errAt <;> simp

/-- C5 witness: a 3-byte response copied 2 bytes per poll completes in 3
polls, so a 10-poll deadline performs the half-close. -/
theorem c5_half_close_witness :
    0 < 2 ∧ send_response 3 2 10 none = true :=
  ⟨by decide, (c5_half_close 3 2 10 none (by decide)).2 (by refine ⟨by decide, ?_⟩; intro k hk; cases hk)⟩

/-! ## Claim C2 — request validation order -/

/-- The validation sequence exactly as the claim states it: a flat
first-failure-wins cascade — (1–2) decode and parse, (3) scheme,
(4) authority present, (5) expected-host match, (6) no userinfo,
(7) no query, (8) no fragment. Invalid UTF-8 surfaces as the `NonUtf8`
variant, which carries the same `59 cannot parse url` status the claim's
combined step 1–2 names. -/
def parseSpecOrdered (inp : Bytes) (parsed : Option Uri) (expect_host : Option Bytes) :
    Except RequestError Request :=
  if utf8Valid inp = false then .error .NonUtf8
  else
    match parsed with
    | none => .error .UnparseableUri
    | some u =>
      if eqIgnoreAsciiCase u.scheme (ascii "gemini") = false then .error .NonGeminiScheme
      else if u.authority.isNone then .error .NoAuthority
      else if (match expect_host, u.authority with
               | some h, some a => !eqIgnoreAsciiCase h a.host
               | _, _ => false) then .error .SniMismatch
      else if (match u.authority with
               | some a => a.userinfo.isSome
               | none => false) then .error .Userinfo
      else if u.query.isSome then .error .HasQuery
      else if u.fragment.isSome then .error .HasFragment
      else .ok ⟨u⟩


/-- A successful parse wraps exactly the parsed URI. -/
theorem parse_ok_shape (inp : Bytes) (u : Uri) (expect_host : Option Bytes) (r : Request)
    (hok : Request.parse inp (some u) expect_host = .ok r) : r = ⟨u⟩ := by
  obtain ⟨s, a, p, q, f⟩ := u
  rcases a with _ | ⟨ui, host, port⟩
  · by_cases h1 : utf8Valid inp = false <;>
      by_cases h2 : eqIgnoreAsciiCase s (ascii "gemini") = false <;>
      simp [Request.parse, h1, h2] at hok
  · rcases expect_host with _ | hh
    · rcases ui with _ | ui <;> rcases q with _ | q <;> rcases f with _ | f <;>
        by_cases h1 : utf8Valid inp = false <;>
        by_cases h2 : eqIgnoreAsciiCase s (ascii "gemini") = false <;>
        simp [Request.parse, h1, h2] at hok <;>
        exact hok.symm
    · rcases ui with _ | ui <;> rcases q with _ | q <;> rcases f with _ | f <;>
        by_cases h1 : utf8Valid inp = false <;>
        by_cases h2 : eqIgnoreAsciiCase s (ascii "gemini") = false <;>
        by_cases h3 : eqIgnoreAsciiCase hh host = true <;>
        simp [Request.parse, h1, h2, h3] at hok <;>
        exact hok.symm

/-- C2: `Request::parse` applies its checks in exactly the claimed order,
the first failure determining the error, and a successful parse exposes
the percent-decoded path and the original textual form. -/
theorem c2_parse_order (inp : Bytes) (parsed : Option Uri) (expect_host : Option Bytes) :
    Request.parse inp parsed expect_host = parseSpecOrdered inp parsed expect_host ∧
      ∀ (u : Uri) (r : Request), parsed = some u →
        Request.parse inp parsed expect_host = .ok r →
          r.pathname = pctDecode u.path ∧ r.as_str = u.toBytes := by
  constructor
  · unfold Request.parse parseSpecOrdered
    rcases parsed with _ | u
    · rfl
    · rcases u with ⟨s, a, p, q, f⟩
      rcases a with _ | a
      · simp
      · rcases expect_host with _ | h <;> simp
  · intro u r hu hok
    subst hu
    have := parse_ok_shape inp u expect_host r hok
    subst this
    exact ⟨rfl, rfl⟩

/-- C2 witness: a well-formed gemini request with a (case-insensitively)
matching expected host parses successfully and exposes its decoded path. -/
theorem c2_parse_order_witness :
    Request.parse (ascii "gemini://example.com/m%20w")
        (some ⟨ascii "gemini", some ⟨none, ascii "example.com", none⟩, ascii "/m%20w", none, none⟩)
        (some (ascii "Example.COM")) =
      parseSpecOrdered (ascii "gemini://example.com/m%20w")
        (some ⟨ascii "gemini", some ⟨none, ascii "example.com", none⟩, ascii "/m%20w", none, none⟩)
        (some (ascii "Example.COM")) ∧
      Request.pathname ⟨⟨ascii "gemini", some ⟨none, ascii "example.com", none⟩, ascii "/m%20w", none, none⟩⟩ = ascii "/m w" := by
  constructor
  · exact (c2_parse_order (ascii "gemini://example.com/m%20w")
      (some ⟨ascii "gemini", some ⟨none, ascii "example.com", none⟩, ascii "/m%20w", none, none⟩)
      (some (ascii "Example.COM"))).1
  · have h := (c2_parse_order (ascii "gemini://example.com/m%20w")
      (some ⟨ascii "gemini", some ⟨none, ascii "example.com", none⟩, ascii "/m%20w", none, none⟩)
      (some (ascii "Example.COM"))).2
      ⟨ascii "gemini", some ⟨none, ascii "example.com", none⟩, ascii "/m%20w", none, none⟩
      ⟨⟨ascii "gemini", some ⟨none, ascii "example.com", none⟩, ascii "/m%20w", none, none⟩⟩
      rfl (by rfl)
    rw [h.1]
    decide

/-! ## Claim C9 — rebuilding the trailing-slash sibling -/

/-- C9: for a request produced by a successful parse, `with_trailing`
never reaches the missing-authority panic, and either succeeds —
preserving scheme and authority and appending `/` to the path — or
reports the `UriBuild` error value. -/
theorem c9_with_trailing (inp : Bytes) (parsed : Option Uri) (expect_host : Option Bytes)
    (r : Request) (hok : Request.parse inp parsed expect_host = .ok r) :
    r.with_trailing ≠ .panicked ∧
      ((∃ r' : Request, r.with_trailing = .ok r' ∧
          r'.uri.scheme = r.uri.scheme ∧ r'.uri.authority = r.uri.authority ∧
          r'.uri.path = r.uri.path ++ [47]) ∨
        r.with_trailing = .error .UriBuild) := by
  have hauth : r.uri.authority.isSome = true := by
    rcases parsed with _ | u
    · simp [Request.parse] at hok
      split at hok
      · cases hok
      · cases hok
    · have := parse_ok_shape inp u expect_host r hok
      subst this
      rcases hau : u.authority with _ | a
      · exfalso
        obtain ⟨s, a, p, q, f⟩ := u
        cases hau
        by_cases h1 : utf8Valid inp = false <;>
          by_cases h2 : eqIgnoreAsciiCase s (ascii "gemini") = false <;>
          simp [Request.parse, h1, h2] at hok
      · simp [hau]
  rcases hau : r.uri.authority with _ | a
  · rw [hau] at hauth; cases hauth
  · unfold Request.with_trailing
    rw [hau]
    by_cases hb : buildPathOk (r.uri.path ++ [47]) = true
    · rw [if_pos hb]
      refine ⟨(by intro h; cases h), Or.inl ⟨_, rfl, rfl, (by simp [hau]), rfl⟩⟩
    · rw [if_neg hb]
      exact ⟨(by intro h; cases h), Or.inr rfl⟩

/-- C9 witness: the parsed root request rebuilds to the trailing-slash
sibling without panicking. -/
theorem c9_with_trailing_witness :
    Request.parse (ascii "gemini://h")
        (some ⟨ascii "gemini", some ⟨none, ascii "h", none⟩, [], none, none⟩) none =
      .ok ⟨⟨ascii "gemini", some ⟨none, ascii "h", none⟩, [], none, none⟩⟩ ∧
      Request.with_trailing ⟨⟨ascii "gemini", some ⟨none, ascii "h", none⟩, [], none, none⟩⟩ ≠ .panicked :=
  ⟨by rfl,
   (c9_with_trailing (ascii "gemini://h")
      (some ⟨ascii "gemini", some ⟨none, ascii "h", none⟩, [], none, none⟩) none
      ⟨⟨ascii "gemini", some ⟨none, ascii "h", none⟩, [], none, none⟩⟩ (by rfl)).1⟩

/-! ## Claim C1 — path resolution -/

/-- What validation guarantees about a request reaching `get_file`: the
authority is present (checked by `Request::parse`) and, per the RFC 3986
grammar `fluent_uri` enforces, a URI with an authority has an empty or
absolute path. -/
def Request.Validated (r : Request) : Prop :=
  r.uri.authority.isSome = true ∧ (r.uri.path = [] ∨ r.uri.path.head? = some 47)

/-- For a validated request the rebuild always succeeds, yielding the
same URI with `/` appended to the path. -/
theorem with_trailing_ok_of_validated (r : Request) (hv : r.Validated) :
    r.with_trailing = .ok ⟨{ r.uri with path := r.uri.path ++ [47] }⟩ := by
  obtain ⟨hauth, hpath⟩ := hv
  rcases hau : r.uri.authority with _ | a
  · rw [hau] at hauth; cases hauth
  · unfold Request.with_trailing
    rw [hau]
    have hb : buildPathOk (r.uri.path ++ [47]) = true := by
      rcases hpath with h | h
      · simp [buildPathOk, h]
      · rcases hp : r.uri.path with _ | ⟨b, rest⟩
        · simp [buildPathOk]
        · rw [hp] at h
          simp at h
          simp [buildPathOk, h]
    rw [if_pos hb]

/-- C1: `get_file` computes `trailing` from the decoded path (empty or
ending in `/`), joins the decoded path onto the root and looks it up: a
miss is Not-Found; a non-index hit with a trailing slash is Not-Found; an
index hit without one is a permanent redirect to the trailing-slash
sibling; every other hit proceeds to serve the entry (`BadEntry` when the
zip backend fails to open it). The empty path behaves identically to
`/`, so the two root forms resolve alike. -/
theorem c1_path_resolution (idx : Index) (openOk : Nat → Bool) (r : Request)
    (hv : r.Validated) :
    (idx r.pathKey = none → get_file idx openOk r = .failure .NotFound) ∧
      (∀ id : Nat, idx r.pathKey = some (id, false) → r.trailingSlash = true →
        get_file idx openOk r = .failure .NotFound) ∧
      (∀ id : Nat, idx r.pathKey = some (id, true) → r.trailingSlash = false →
        ∃ r' : Request, r.with_trailing = .ok r' ∧
          r'.uri.path = r.uri.path ++ [47] ∧ get_file idx openOk r = .redirect r') ∧
      (∀ (id : Nat) (isIdx : Bool), idx r.pathKey = some (id, isIdx) →
        isIdx = r.trailingSlash →
        get_file idx openOk r =
          (if openOk id then
            .success (MimeType.from_extension (if isIdx then none else extension r.pathKey)) id
          else .failure .BadEntry)) ∧
      (∀ u : Uri,
        get_file idx openOk ⟨{ u with path := [] }⟩ =
          get_file idx openOk ⟨{ u with path := [47] }⟩) := by
  refine ⟨fun h => ?_, fun id h ht => ?_, fun id h ht => ?_, fun id isIdx h his => ?_,
    fun u => ?_⟩
  · simp [get_file, h]
  · simp [get_file, h, ht]
  · have hw := with_trailing_ok_of_validated r hv
    refine ⟨_, hw, rfl, ?_⟩
    simp [get_file, h, ht, hw]
  · cases isIdx <;> cases htr : r.trailingSlash <;> rw [htr] at his <;> try cases his
    · simp [get_file, h, htr]
    · simp [get_file, h, htr]
  · have hk0 : Request.pathKey ⟨{ u with path := [] }⟩ = [] := rfl
    have hk1 : Request.pathKey ⟨{ u with path := [47] }⟩ = [] := rfl
    have ht0 : Request.trailingSlash ⟨{ u with path := [] }⟩ = true := rfl
    have ht1 : Request.trailingSlash ⟨{ u with path := [47] }⟩ = true := rfl
    unfold get_file
    rw [hk0, hk1, ht0, ht1]
    rcases idx [] with _ | ⟨id, isIdx⟩
    · rfl
    · cases isIdx <;> rfl

/-- C1 witness: a single-file archive resolves the file, rejects its
trailing-slash form, and treats the empty root path like `/`. -/
theorem c1_path_resolution_witness :
    (Request.Validated ⟨⟨ascii "gemini", some ⟨none, ascii "h", none⟩, ascii "/a.txt", none, none⟩⟩) ∧
      get_file (from_zip [⟨ascii "a.txt", false⟩]) (fun _ => true)
          ⟨⟨ascii "gemini", some ⟨none, ascii "h", none⟩, ascii "/a.txt", none, none⟩⟩ =
        .success ⟨"text", "plain"⟩ 0 := by
  have hv : Request.Validated ⟨⟨ascii "gemini", some ⟨none, ascii "h", none⟩, ascii "/a.txt", none, none⟩⟩ := by
    constructor
    · rfl
    · right; rfl
  refine ⟨hv, ?_⟩
  have h := (c1_path_resolution (from_zip [⟨ascii "a.txt", false⟩]) (fun _ => true)
    ⟨⟨ascii "gemini", some ⟨none, ascii "h", none⟩, ascii "/a.txt", none, none⟩⟩ hv).2.2.2.1
    0 false (by decide) (by decide)
  rw [h]
  decide

/-! ## Claim C8 — MIME derivation -/

/-- C8 counterexample: the extension consisting of the single byte 0xFF is
not present in the static table, yet `from_extension` yields `text/gemini`
for it, not `application/octet-stream`: `OsStr::to_str` turns a non-UTF-8
extension into `None`, which the match groups with the no-extension arm. -/
theorem c8_counterexample :
    asciiLower [255] ∉ mimeTable.map Prod.fst ∧
      MimeType.from_extension (some [255]) = ⟨"text", "gemini"⟩ := by
  decide

/-- C8 (amended): a success forced through a directory index serves
`text/gemini` regardless of extension, and otherwise the mimetype comes
from the resolved path's extension through the lowercased static table; a
UTF-8 extension absent from the table defaults to
`application/octet-stream`, while a non-UTF-8 extension is treated like a
missing one and yields `text/gemini`. -/
theorem c8_mime_derivation (idx : Index) (openOk : Nat → Bool) (r : Request)
    (m : MimeType) (id : Nat) (h : get_file idx openOk r = .success m id) :
    (∃ isIdx : Bool, idx r.pathKey = some (id, isIdx) ∧
        m = MimeType.from_extension (if isIdx then none else extension r.pathKey) ∧
        (isIdx = true → m = ⟨"text", "gemini"⟩)) ∧
      (∀ e : Bytes, utf8Valid e = true → asciiLower e ∉ mimeTable.map Prod.fst →
        MimeType.from_extension (some e) = ⟨"application", "octet-stream"⟩) ∧
      (∀ e : Bytes, utf8Valid e = false →
        MimeType.from_extension (some e) = ⟨"text", "gemini"⟩) := by
  refine ⟨?_, fun e he hn => ?_, fun e he => ?_⟩
  · unfold get_file at h
    rcases hk : idx r.pathKey with _ | ⟨id', isIdx⟩ <;> rw [hk] at h
    · cases h
    · cases isIdx <;> cases htr : r.trailingSlash <;> rw [htr] at h
      · by_cases ho : openOk id' = true <;> simp [ho] at h
        refine ⟨false, (by rw [h.2]), ?_, (by simp)⟩
        simpa using h.1.symm
      · cases h
      · rcases hw : r.with_trailing with _ | e' | r' <;> rw [hw] at h <;> cases h
      · by_cases ho : openOk id' = true <;> simp [ho] at h
        refine ⟨true, (by rw [h.2]), ?_, fun _ => h.1.symm⟩
        simpa using h.1.symm
  · have hfind : mimeTable.find? (fun kv => kv.1 == asciiLower e) = none := by
      rw [List.find?_eq_none]
      intro kv hkv
      simp only [beq_iff_eq]
      intro hEq
      exact hn (hEq ▸ List.mem_map_of_mem Prod.fst hkv)
    simp [MimeType.from_extension, he, hfind]
  · simp [MimeType.from_extension, he]

/-- C8 witness: serving `b.png` yields `image/png`, and an unknown UTF-8
extension defaults to `application/octet-stream`. -/
theorem c8_mime_derivation_witness :
    get_file (from_zip [⟨ascii "b.png", false⟩]) (fun _ => true)
        ⟨⟨ascii "gemini", some ⟨none, ascii "h", none⟩, ascii "/b.png", none, none⟩⟩ =
      .success ⟨"image", "png"⟩ 0 ∧
      MimeType.from_extension (some (ascii "qqq")) = ⟨"application", "octet-stream"⟩ := by
  have h : get_file (from_zip [⟨ascii "b.png", false⟩]) (fun _ => true)
      ⟨⟨ascii "gemini", some ⟨none, ascii "h", none⟩, ascii "/b.png", none, none⟩⟩ =
      .success ⟨"image", "png"⟩ 0 := by decide
  exact ⟨h, (c8_mime_derivation (from_zip [⟨ascii "b.png", false⟩]) (fun _ => true)
    ⟨⟨ascii "gemini", some ⟨none, ascii "h", none⟩, ascii "/b.png", none, none⟩⟩
    ⟨"image", "png"⟩ 0 h).2.1 (ascii "qqq") (by decide) (by decide)⟩

/-! ## Claim C7 — building the index -/

/-- The insertions the claim prescribes for one `(i, entry)` pair, in the
order the loop performs them: nothing for a directory; for a file, the
parent-path index alias first when the file name is exactly `index.gmi`,
then the file path itself. -/
def entryInsertionsSpec (i : Nat) (e : ZipEntry) : List (PathKey × (Nat × Bool)) :=
  if e.isDir then []
  else
    (if fileName (joinRoot e.filename) = some (ascii "index.gmi")
     then [(popPath (joinRoot e.filename), (i, true))]
     else []) ++ [(joinRoot e.filename, (i, false))]

/-- The index the claim describes: the value at `k` is the last insertion
targeting `k` in the archive-ordered insertion sequence. -/
def indexSpec (entries : List ZipEntry) (k : PathKey) : Option (Nat × Bool) :=
  (((entries.enum.map fun ie => entryInsertionsSpec ie.1 ie.2).flatten.reverse.find?
      fun kv => kv.1 == k)).map Prod.snd

/-- One loop step agrees with the spec insertions for that entry. -/
theorem fromZipStep_spec (m : Index) (ie : Nat × ZipEntry) (k : PathKey) :
    fromZipStep m ie k =
      match (entryInsertionsSpec ie.1 ie.2).reverse.find? (fun kv => kv.1 == k) with
      | some kv => some kv.2
      | none => m k := by
  obtain ⟨i, e⟩ := ie
  by_cases hd : e.isDir
  · simp [fromZipStep, entryInsertionsSpec, hd]
  · by_cases hi : fileName (joinRoot e.filename) = some (ascii "index.gmi")
    · by_cases hk1 : k = joinRoot e.filename
      · subst hk1
        simp [fromZipStep, entryInsertionsSpec, hd, hi, insertIdx]
      · by_cases hk2 : k = popPath (joinRoot e.filename)
        · subst hk2
          simp [fromZipStep, entryInsertionsSpec, hd, hi, insertIdx, hk1, Ne.symm hk1]
        · simp [fromZipStep, entryInsertionsSpec, hd, hi, insertIdx, hk1, hk2,
            Ne.symm hk1, Ne.symm hk2]
    · by_cases hk1 : k = joinRoot e.filename
      · subst hk1
        simp [fromZipStep, entryInsertionsSpec, hd, hi, insertIdx]
      · simp [fromZipStep, entryInsertionsSpec, hd, hi, insertIdx, hk1, Ne.symm hk1]

/-- The fold over any pair list agrees with last-insertion-wins lookup,
falling back to the accumulator. -/
theorem foldl_fromZipStep_spec (l : List (Nat × ZipEntry)) :
    ∀ (m : Index) (k : PathKey),
      (l.foldl fromZipStep m) k =
        match ((l.map fun ie => entryInsertionsSpec ie.1 ie.2).flatten.reverse.find?
            fun kv => kv.1 == k) with
        | some kv => some kv.2
        | none => m k := by
  induction l with
  | nil => intro m k; rfl
  | cons ie rest ih =>
    intro m k
    rw [List.foldl_cons, ih (fromZipStep m ie) k]
    rw [List.map_cons, List.flatten_cons, List.reverse_append, List.find?_append]
    rcases hfind : ((rest.map fun ie => entryInsertionsSpec ie.1 ie.2).flatten.reverse.find?
        fun kv => kv.1 == k) with _ | kv <;> rw [hfind]
    · simp only [Option.none_or]
      exact fromZipStep_spec m ie k
    · rfl

/-- C7: the index built by `from_zip` is exactly the claim's description —
directories are skipped, each file is inserted under its root-joined path
with `is_index = false`, each `index.gmi` file is additionally inserted
under its parent path with `is_index = true`, and on key collisions the
later entry in archive order wins. -/
theorem c7_from_zip (entries : List ZipEntry) (k : PathKey) :
    from_zip entries k = indexSpec entries k := by
  rw [from_zip, foldl_fromZipStep_spec entries.enum emptyIndex k, indexSpec]
  rcases hfind : ((entries.enum.map fun ie => entryInsertionsSpec ie.1 ie.2).flatten.reverse.find?
      fun kv => kv.1 == k) with _ | kv <;> rw [hfind] <;> rfl

/-! ## Claim C3 — the two-stage byte source -/

/-- After the transition, positive reads drain the second source. -/
theorem chainDrain_done (sizes : List Nat) :
    ∀ (f sec : Bytes), (∀ n ∈ sizes, 0 < n) → sec.length ≤ sizes.length →
      chainDrain ⟨f, sec, true⟩ sizes = sec := by
  induction sizes with
  | nil =>
    intro f sec _ hlen
    have : sec = [] := List.eq_nil_of_length_eq_zero (by simpa using hlen)
    simp [chainDrain, this]
  | cons n rest ih =>
    intro f sec hpos hlen
    have hn : 0 < n := hpos n (List.mem_cons_self n rest)
    have hrest : ∀ m ∈ rest, 0 < m := fun m hm => hpos m (List.mem_cons_of_mem n hm)
    have hread : chainRead ⟨f, sec, true⟩ n = (sec.take n, ⟨f, sec.drop n, true⟩) := by
      simp [chainRead]
    have hlen' : (sec.drop n).length ≤ rest.length := by
      simp only [List.length_drop]
      simp only [List.length_cons] at hlen
      omega
    calc chainDrain ⟨f, sec, true⟩ (n :: rest)
        = sec.take n ++ chainDrain ⟨f, sec.drop n, true⟩ rest := by
          simp [chainDrain, hread]
      _ = sec.take n ++ sec.drop n := congrArg _ (ih f (sec.drop n) hrest hlen')
      _ = sec := List.take_append_drop n sec

/-- Before the transition, positive reads drain the first source in full,
then the second, with the hand-off read losing nothing. -/
theorem chainDrain_chain (sizes : List Nat) :
    ∀ (f sec : Bytes), (∀ n ∈ sizes, 0 < n) → f.length + sec.length ≤ sizes.length →
      chainDrain ⟨f, sec, false⟩ sizes = f ++ sec := by
  induction sizes with
  | nil =>
    intro f sec _ hlen
    simp only [List.length_nil, Nat.le_zero, Nat.add_eq_zero] at hlen
    simp [chainDrain, List.eq_nil_of_length_eq_zero hlen.1,
      List.eq_nil_of_length_eq_zero hlen.2]
  | cons n rest ih =>
    intro f sec hpos hlen
    have hn : 0 < n := hpos n (List.mem_cons_self n rest)
    have hrest : ∀ m ∈ rest, 0 < m := fun m hm => hpos m (List.mem_cons_of_mem n hm)
    rcases f with _ | ⟨a, f'⟩
    · have hread : chainRead ⟨[], sec, false⟩ n = (sec.take n, ⟨[], sec.drop n, true⟩) := by
        simp [chainRead]
      have hlen' : (sec.drop n).length ≤ rest.length := by
        simp only [List.length_drop]
        simp only [List.length_cons, List.length_nil] at hlen
        omega
      calc chainDrain ⟨[], sec, false⟩ (n :: rest)
          = sec.take n ++ chainDrain ⟨[], sec.drop n, true⟩ rest := by
            simp [chainDrain, hread]
        _ = sec.take n ++ sec.drop n :=
            congrArg _ (chainDrain_done rest [] (sec.drop n) hrest hlen')
        _ = [] ++ sec := List.take_append_drop n sec
    · rcases n with _ | m
      · cases hn
      · have hread : chainRead ⟨a :: f', sec, false⟩ (m + 1) =
            (a :: f'.take m, ⟨f'.drop m, sec, false⟩) := by
          simp [chainRead]
        have hlen' : (f'.drop m).length + sec.length ≤ rest.length := by
          simp only [List.length_drop]
          simp only [List.length_cons] at hlen
          omega
        calc chainDrain ⟨a :: f', sec, false⟩ ((m + 1) :: rest)
            = (a :: f'.take m) ++ chainDrain ⟨f'.drop m, sec, false⟩ rest := by
              simp [chainDrain, hread]
          _ = (a :: f'.take m) ++ (f'.drop m ++ sec) :=
              congrArg _ (ih (f'.drop m) sec hrest hlen')
          _ = (a :: f') ++ sec := by
              simp only [List.cons_append, List.append_assoc]
              rw [← List.append_assoc, List.take_append_drop]

/-- C3: reading the encoder's two-stage chained source to completion with
positive-capacity reads yields exactly `h ++ b` — the whole header before
any body byte, the body passed through unmodified, and nothing at the
boundary dropped or duplicated; a Success response's reader is exactly
such a chain of its status line and its body. -/
theorem c3_two_stage_chain :
    (∀ (h b : Bytes) (sizes : List Nat), (∀ n ∈ sizes, 0 < n) →
      h.length + b.length ≤ sizes.length →
      chainDrain (OptionalChain.chain h b) sizes = h ++ b) ∧
      ∀ (m : MimeType) (body : Bytes),
        (Response.success m body).into_read =
          OptionalChain.chain (ascii "20 " ++ m.toBytes ++ ascii "\r\n") body := by
  exact ⟨fun h b sizes hpos hlen => chainDrain_chain sizes h b hpos hlen,
    fun m body => rfl⟩

/-- C3 witness: a 3-byte header chained with a 2-byte body, drained one
byte at a time, reproduces header then body exactly. -/
theorem c3_two_stage_chain_witness :
    ((∀ n ∈ [1, 1, 1, 1, 1], 0 < n) ∧
        ([2, 0, 13] : Bytes).length + ([104, 105] : Bytes).length ≤ [1, 1, 1, 1, 1].length) ∧
      chainDrain (OptionalChain.chain [2, 0, 13] [104, 105]) [1, 1, 1, 1, 1] =
        [2, 0, 13, 104, 105] :=
  ⟨⟨by decide, by decide⟩,
   c3_two_stage_chain.1 [2, 0, 13] [104, 105] [1, 1, 1, 1, 1] (by decide) (by decide)⟩

/-! ## Claim C4 — the 1024-byte request-line limit -/

/-- With a full 1026-byte buffer every further read returns zero bytes,
so the loop rejects with `HeaderTooLong`. -/
theorem parseReqRec_full (buf : Bytes) (chunks : List Bytes) (h : 1026 ≤ buf.length) :
    parseReqRec buf chunks = .headerTooLong := by
  cases chunks with
  | nil => rfl
  | cons ch rest =>
    simp [parseReqRec, Nat.sub_eq_zero_of_le h]

/-- Stripping the CRLF suffix of a terminated line returns its content. -/
theorem stripSuffixCrlf_append (x : Bytes) : stripSuffixCrlf (x ++ [13, 10]) = some x := by
  simp [stripSuffixCrlf, List.reverse_append]

/-- A successful strip means the string ended with CRLF. -/
theorem stripSuffixCrlf_eq_some (l x : Bytes) (h : stripSuffixCrlf l = some x) :
    l = x ++ [13, 10] := by
  unfold stripSuffixCrlf at h
  split at h
  next rest heq =>
    injection h with h
    subst h
    have h2 := congrArg List.reverse heq
    simpa using h2
  next => cases h

/-- A string containing CRLF satisfies `containsCrlf`. -/
theorem containsCrlf_append (x t : Bytes) : containsCrlf (x ++ 13 :: 10 :: t) = true := by
  induction x with
  | nil => simp [containsCrlf]
  | cons a x' ih => simp [containsCrlf, ih]

/-- No proper prefix of `content ++ CRLF` ends in CRLF when the content is
CRLF-free. -/
theorem stripSuffixCrlf_of_proper (c p : Bytes) (hc : containsCrlf c = false)
    (hp : p <+: c ++ [13, 10]) (hlen : p.length ≤ c.length + 1) :
    stripSuffixCrlf p = none := by
  rcases h : stripSuffixCrlf p with _ | x
  · rfl
  · exfalso
    have hp2 := stripSuffixCrlf_eq_some p x h
    rcases Nat.lt_or_ge p.length (c.length + 1) with hl | hl
    · have hpc : p <+: c :=
        List.prefix_of_prefix_length_le hp (List.prefix_append c [13, 10]) (by omega)
      obtain ⟨t, ht⟩ := hpc
      have hcontains : containsCrlf c = true := by
        rw [← ht, hp2]
        have h3 : x ++ [13, 10] ++ t = x ++ 13 :: 10 :: t := by simp
        rw [h3]
        exact containsCrlf_append x t
      rw [hc] at hcontains
      cases hcontains
    · have hlen2 : p.length = c.length + 1 := by omega
      have hp3 : p = (c ++ [13, 10]).take (c.length + 1) := by
        have := List.prefix_iff_eq_take.mp hp
        rw [hlen2] at this
        exact this
      have ht : (c ++ [13, 10]).take (c.length + 1) = c ++ [13] := by
        have h4 : (c ++ [13, 10]).take (c.length + 1) = c ++ ([13, 10]).take 1 :=
          List.take_append_eq_append_take.trans (by simp)
        exact h4.trans rfl
      have h5 : p.getLast? = some 10 := by
        rw [hp2]
        rw [show x ++ [13, 10] = (x ++ [13]) ++ [10] by simp]
        exact List.getLast?_concat _
      have h6 : p.getLast? = some 13 := by
        rw [hp3, ht]
        exact List.getLast?_concat _
      rw [h5] at h6
      have : (10 : UInt8) = 13 := Option.some.inj h6
      cases this

/-- Acceptance: while the buffered bytes are a proper prefix of a
1026-byte terminated line, nonempty reads that together deliver the rest
always end with the content handed to the parser. -/
theorem parseReqRec_accepts (c : Bytes) (hc : containsCrlf c = false)
    (hclen : c.length = 1024) :
    ∀ (chunks : List Bytes) (buf : Bytes),
      buf <+: c ++ [13, 10] → buf ≠ c ++ [13, 10] →
      buf ++ chunks.flatten = c ++ [13, 10] →
      (∀ ch ∈ chunks, ch ≠ []) →
      parseReqRec buf chunks = .line c := by
  intro chunks
  induction chunks with
  | nil =>
    intro buf hpre hne hcat _
    simp only [List.flatten_nil, List.append_nil] at hcat
    exact absurd hcat hne
  | cons ch rest ih =>
    intro buf hpre hne hcat hnonempty
    have hchne : ch ≠ [] := hnonempty ch (List.mem_cons_self ch rest)
    have hdatalen : (c ++ [13, 10]).length = 1026 := by simp [hclen]
    have hbuflt : buf.length < 1026 := by
      rcases Nat.lt_or_ge buf.length 1026 with h | h
      · exact h
      · exfalso
        apply hne
        apply hpre.eq_of_length
        have := hpre.length_le
        omega
    have hlencat := congrArg List.length hcat
    simp only [List.length_append, List.flatten_cons, hdatalen] at hlencat
    have hchle : ch.length ≤ 1026 - buf.length := by omega
    have htake : ch.take (1026 - buf.length) = ch := List.take_of_length_le hchle
    have hisem : (ch.take (1026 - buf.length)).isEmpty = false := by
      rw [htake]
      rcases ch with _ | ⟨a, t⟩
      · exact absurd rfl hchne
      · rfl
    have hcat2 : (buf ++ ch) ++ rest.flatten = c ++ [13, 10] := by
      rw [List.append_assoc]
      simpa [List.flatten_cons] using hcat
    by_cases heq : buf ++ ch = c ++ [13, 10]
    · have hstrip : stripSuffixCrlf (buf ++ ch) = some c := by
        rw [heq]
        exact stripSuffixCrlf_append c
      simp [parseReqRec, htake, hisem, hstrip, hchne]
    · have hpre' : buf ++ ch <+: c ++ [13, 10] := ⟨rest.flatten, hcat2⟩
      have hlt' : (buf ++ ch).length < 1026 := by
        rcases Nat.lt_or_ge (buf ++ ch).length 1026 with h | h
        · exact h
        · exfalso
          apply heq
          apply hpre'.eq_of_length
          have := hpre'.length_le
          omega
      have hstrip : stripSuffixCrlf (buf ++ ch) = none := by
        apply stripSuffixCrlf_of_proper c _ hc hpre'
        simp only [List.length_append]
        simp only [List.length_append] at hlt'
        omega
      have hrec : parseReqRec (buf ++ ch) rest = .line c :=
        ih (buf ++ ch) hpre' heq hcat2
          (fun x hx => hnonempty x (List.mem_cons_of_mem ch hx))
      simp [parseReqRec, htake, hisem, hstrip, hrec, hchne]

/-- Rejection: once the terminated line is at least 1027 bytes and its
content is CRLF-free, every read schedule delivering it ends in
`HeaderTooLong` — the buffer fills before a terminator is seen. -/
theorem parseReqRec_rejects (c : Bytes) (hc : containsCrlf c = false)
    (hclen : 1025 ≤ c.length) :
    ∀ (chunks : List Bytes) (buf : Bytes),
      buf <+: c ++ [13, 10] →
      (c ++ [13, 10]) <+: buf ++ chunks.flatten →
      buf.length ≤ 1026 →
      parseReqRec buf chunks = .headerTooLong := by
  intro chunks
  induction chunks with
  | nil => intro buf _ _ _; rfl
  | cons ch rest ih =>
    intro buf hpre hcat hble
    by_cases he : (ch.take (1026 - buf.length)).isEmpty = true
    · simp [parseReqRec, he]
    · have hck : (ch.take (1026 - buf.length)).length ≤ 1026 - buf.length := by
        simp [List.length_take]
      have hlen' : (buf ++ ch.take (1026 - buf.length)).length ≤ 1026 := by
        simp only [List.length_append]
        omega
      have hdatalen : 1027 ≤ (c ++ [13, 10]).length := by simp; omega
      have hstep1 : buf ++ ch.take (1026 - buf.length) <+: buf ++ (ch :: rest).flatten := by
        obtain ⟨t, ht⟩ := List.take_prefix (1026 - buf.length) ch
        exact ⟨t ++ rest.flatten, by rw [List.flatten_cons, ← List.append_assoc,
          List.append_assoc buf, ht, List.append_assoc]⟩
      have hpre' : buf ++ ch.take (1026 - buf.length) <+: c ++ [13, 10] := by
        apply List.prefix_of_prefix_length_le hstep1 hcat
        omega
      have hstrip : stripSuffixCrlf (buf ++ ch.take (1026 - buf.length)) = none := by
        apply stripSuffixCrlf_of_proper c _ hc hpre'
        omega
      by_cases hfull : ch.length ≤ 1026 - buf.length
      · have htake : ch.take (1026 - buf.length) = ch := List.take_of_length_le hfull
        rw [htake] at hstrip hpre' hlen'
        have hcat2 : (c ++ [13, 10]) <+: (buf ++ ch) ++ rest.flatten := by
          rw [List.append_assoc]
          simpa [List.flatten_cons] using hcat
        have hrec : parseReqRec (buf ++ ch) rest = .headerTooLong :=
          ih (buf ++ ch) hpre' hcat2 hlen'
        simp [parseReqRec, htake, he, hstrip, hrec]
      · have hklen : (ch.take (1026 - buf.length)).length = 1026 - buf.length := by
          rw [List.length_take]
          omega
        have hrec : parseReqRec (buf ++ ch.take (1026 - buf.length)) rest = .headerTooLong := by
          apply parseReqRec_full
          simp only [List.length_append, hklen]
          omega
        simp [parseReqRec, he, hstrip, hrec]

/-- A byte string without any carriage return is CRLF-free. -/
theorem containsCrlf_of_no_cr (l : Bytes) (h : ∀ b ∈ l, ¬b = 13) :
    containsCrlf l = false := by
  induction l with
  | nil => rfl
  | cons a t ih =>
    have ha : ¬a = 13 := h a (List.mem_cons_self a t)
    simp [containsCrlf, ha, ih fun b hb => h b (List.mem_cons_of_mem a hb)]

/-- C4: a request line of exactly 1024 content bytes plus CRLF is read in
full and its content handed to the parser under every delivery schedule,
while 1025 or more content bytes plus CRLF always fills the 1026-byte
buffer before the terminator is seen and is rejected with
`HeaderTooLong`, whose status line is `59 header too long`. -/
theorem c4_header_length_limit (c : Bytes) (chunks : List Bytes)
    (hc : containsCrlf c = false) :
    (c.length = 1024 → chunks.flatten = c ++ [13, 10] → (∀ ch ∈ chunks, ch ≠ []) →
      parseReqRec [] chunks = .line c) ∧
      (1025 ≤ c.length → chunks.flatten = c ++ [13, 10] →
        parseReqRec [] chunks = .headerTooLong) ∧
      Err.bytes .HeaderTooLong = ascii "59 header too long\r\n" := by
  refine ⟨fun hclen hflat hne => ?_, fun hclen hflat => ?_, rfl⟩
  · apply parseReqRec_accepts c hc hclen chunks []
    · exact List.nil_prefix
    · intro hcontra
      have := congrArg List.length hcontra
      simp at this
    · simpa using hflat
    · exact hne
  · apply parseReqRec_rejects c hc hclen chunks []
    · exact List.nil_prefix
    · rw [List.nil_append, hflat]
    · simp

/-- C4 witness: 1024 `h` bytes plus CRLF, delivered in one read, are
accepted and handed to the parser. -/
theorem c4_header_length_limit_witness :
    containsCrlf (List.replicate 1024 104) = false ∧
      parseReqRec [] [List.replicate 1024 (104 : UInt8) ++ [13, 10]] =
        .line (List.replicate 1024 104) := by
  have hc : containsCrlf (List.replicate 1024 (104 : UInt8)) = false := by
    apply containsCrlf_of_no_cr
    intro b hb
    rw [List.eq_of_mem_replicate hb]
    decide
  refine ⟨hc, (c4_header_length_limit (List.replicate 1024 104)
    [List.replicate 1024 (104 : UInt8) ++ [13, 10]] hc).1
    (List.length_replicate 1024 104)
    (by rw [List.flatten_cons, List.flatten_nil, List.append_nil]) ?_⟩
  intro ch hch
  rw [List.mem_singleton] at hch
  subst hch
  intro hcontra
  have h2 := congrArg List.length hcontra
  rw [List.length_append, List.length_replicate] at h2
  exact absurd h2 (by decide)
